import Mathlib

/-!
Verification development for the trueseeing analysis-context slice.

We shallowly embed the parts of the program that the specification's claims
talk about:

* `src/trueseeing/context.py` — the `Context` class: fingerprinting,
  content-addressed workdir selection, single-shot `analyze`, memoized
  enumerations of disassembled classes/resources/string-resource files, and
  the path-to-dalvik-type transform;
* `src/trueseeing/app/cmd/android/search.py` — `_search_defined_package`;
* `src/trueseeing/app/cmd/config.py` — `ConfigCommand._mod`.

Filesystem paths are modelled as lists of segments (`Path := List String`);
file contents and zip-entry contents as byte lists (`List Nat`).  The state
of the on-disk world is an explicit `FS` record threaded through the
operations; Python exceptions become explicit error values.
-/

namespace Trueseeing

/-- A filesystem path, as a list of segments (what `os.sep` separates). -/
abbrev Path := List String

/-- Ancestor test `isAnc d f`: `d` is a (non-strict) leading run of `f`; on paths it models
"lies in the directory tree rooted at `d`", on character lists it models a
match of the pattern at the head of the text. -/
def isAnc {α : Type} [DecidableEq α] : List α → List α → Bool
  | [], _ => true
  | _, [] => false
  | a :: as, b :: bs => decide (a = b) && isAnc as bs

/-- A file strictly below directory `d` (as `os.walk(d)` enumerates). -/
def underDir (d f : Path) : Bool :=
  isAnc d f && decide (d.length < f.length)

/-- Python `str.startswith` on the underlying characters. -/
def startsWithCh (pre : List Char) (s : String) : Bool :=
  isAnc pre s.data

/-- Python `str.endswith` on the underlying characters. -/
def endsWithCh (suf : List Char) (s : String) : Bool :=
  isAnc suf.reverse s.data.reverse

theorem isAnc_append {α : Type} [DecidableEq α] (d e : List α) : isAnc d (d ++ e) = true := by
  induction d with
  | nil => simp [isAnc]
  | cons a as ih => simp [isAnc, ih]

theorem exists_of_isAnc {α : Type} [DecidableEq α] :
    ∀ {d f : List α}, isAnc d f = true → ∃ e, f = d ++ e := by
  intro d
  induction d with
  | nil => exact fun {f} _ => ⟨f, rfl⟩
  | cons a as ih =>
    intro f h
    cases f with
    | nil => simp [isAnc] at h
    | cons b bs =>
      simp only [isAnc, Bool.and_eq_true, decide_eq_true_eq] at h
      obtain ⟨e, he⟩ := ih h.2
      exact ⟨e, by simp [h.1, he]⟩

theorem isAnc_trans {α : Type} [DecidableEq α] {a b c : List α}
    (h1 : isAnc a b = true) (h2 : isAnc b c = true) : isAnc a c = true := by
  obtain ⟨e1, rfl⟩ := exists_of_isAnc h1
  obtain ⟨e2, rfl⟩ := exists_of_isAnc h2
  rw [List.append_assoc]
  exact isAnc_append _ _

/-! ### SHA-256 (model of `hashlib.sha256(...).hexdigest()`)

`Context.fingerprint_of` hashes the manifest-integrity entry with SHA-256
and uses the lowercase hex digest.  We embed the full FIPS-180-4 algorithm
over `Nat` with explicit reduction mod 2^32. -/

/-- Truncate to a 32-bit word. -/
def w32 (x : Nat) : Nat := x % 4294967296

/-- Right rotation of a 32-bit word. -/
def rotr32 (n x : Nat) : Nat := w32 ((x >>> n) ||| (x <<< (32 - n)))

def sha256Ch (x y z : Nat) : Nat := (x &&& y) ^^^ ((x ^^^ 4294967295) &&& z)

def sha256Maj (x y z : Nat) : Nat := (x &&& y) ^^^ (x &&& z) ^^^ (y &&& z)

def sha256S0 (x : Nat) : Nat := rotr32 2 x ^^^ rotr32 13 x ^^^ rotr32 22 x

def sha256S1 (x : Nat) : Nat := rotr32 6 x ^^^ rotr32 11 x ^^^ rotr32 25 x

def sha256s0 (x : Nat) : Nat := rotr32 7 x ^^^ rotr32 18 x ^^^ (x >>> 3)

def sha256s1 (x : Nat) : Nat := rotr32 17 x ^^^ rotr32 19 x ^^^ (x >>> 10)

/-- The 64 SHA-256 round constants (FIPS 180-4 §4.2.2), in decimal. -/
def sha256K : List Nat :=
  [1116352408, 1899447441, 3049323471, 3921009573, 961987163,
   1508970993, 2453635748, 2870763221, 3624381080, 310598401,
   607225278, 1426881987, 1925078388, 2162078206, 2614888103,
   3248222580, 3835390401, 4022224774, 264347078, 604807628,
   770255983, 1249150122, 1555081692, 1996064986, 2554220882,
   2821834349, 2952996808, 3210313671, 3336571891, 3584528711,
   113926993, 338241895, 666307205, 773529912, 1294757372,
   1396182291, 1695183700, 1986661051, 2177026350, 2456956037,
   2730485921, 2820302411, 3259730800, 3345764771, 3516065817,
   3600352804, 4094571909, 275423344, 430227734, 506948616,
   659060556, 883997877, 958139571, 1322822218, 1537002063,
   1747873779, 1955562222, 2024104815, 2227730452, 2361852424,
   2428436474, 2756734187, 3204031479, 3329325298]

/-- Initial SHA-256 hash state (FIPS 180-4 §5.3.3), in decimal. -/
def sha256H0 : List Nat :=
  [1779033703, 3144134277, 1013904242, 2773480762, 1359893119,
   2600822924, 528734635, 1541459225]

/-- Big-endian byte decomposition of `n` into `len` bytes. -/
def natToBytesBE (len n : Nat) : List Nat :=
  (List.range len).map (fun i => (n >>> (8 * (len - 1 - i))) % 256)

/-- FIPS padding: append 0x80, zero-pad to 56 mod 64, append 64-bit bit length. -/
def sha256Pad (msg : List Nat) : List Nat :=
  let withOne := msg ++ [0x80]
  let zeros := (64 - withOne.length % 64 + 56) % 64
  withOne ++ List.replicate zeros 0 ++ natToBytesBE 8 (msg.length * 8)

/-- Group a byte list into big-endian 32-bit words, four bytes at a time. -/
def bytesToWords : List Nat → List Nat
  | a :: b :: c :: d :: rest => (a <<< 24 ||| b <<< 16 ||| c <<< 8 ||| d) :: bytesToWords rest
  | _ => []

/-- Split a word list into chunks of 16 words. -/
def chunks16 (l : List Nat) : List (List Nat) :=
  if h : l = [] then []
  else
    have : (l.drop 16).length < l.length := by
      have : 0 < l.length := List.length_pos.mpr h
      simp only [List.length_drop]
      omega
    l.take 16 :: chunks16 (l.drop 16)
termination_by l.length

/-- Extend a 16-word chunk into the 64-entry message schedule. -/
def sha256Extend (w : List Nat) : List Nat :=
  if h : w.length < 64 then
    have : 64 - (w ++ [0]).length < 64 - w.length := by
      simp only [List.length_append, List.length_cons, List.length_nil]
      omega
    sha256Extend (w ++
      [w32 (w.getD (w.length - 16) 0 + sha256s0 (w.getD (w.length - 15) 0) +
            w.getD (w.length - 7) 0 + sha256s1 (w.getD (w.length - 2) 0))])
  else w
termination_by 64 - w.length

/-- One round of the SHA-256 compression function. -/
def sha256Round (st : List Nat) (kw : Nat × Nat) : List Nat :=
  let a := st.getD 0 0
  let b := st.getD 1 0
  let c := st.getD 2 0
  let d := st.getD 3 0
  let e := st.getD 4 0
  let f := st.getD 5 0
  let g := st.getD 6 0
  let h := st.getD 7 0
  let t1 := w32 (h + sha256S1 e + sha256Ch e f g + kw.1 + kw.2)
  let t2 := w32 (sha256S0 a + sha256Maj a b c)
  [w32 (t1 + t2), a, b, c, w32 (d + t1), e, f, g]

/-- Process one 512-bit chunk: run 64 rounds and add into the hash state. -/
def sha256Chunk (hstate : List Nat) (chunk : List Nat) : List Nat :=
  let sched := sha256Extend chunk
  let fin := (sha256K.zip sched).foldl sha256Round hstate
  (hstate.zip fin).map (fun p => w32 (p.1 + p.2))

/-- Lowercase hex digit. -/
def hexChar (n : Nat) : Char :=
  if n < 10 then Char.ofNat (48 + n) else Char.ofNat (87 + n)

/-- Lowercase 8-hex-digit rendering of a 32-bit word. -/
def wordToHex (n : Nat) : List Char :=
  (List.range 8).map (fun i => hexChar ((n >>> (4 * (7 - i))) % 16))

/-- Model of `hashlib.sha256(msg).hexdigest()`: the lowercase hex digest of SHA-256. -/
def sha256Hex (msg : List Nat) : String :=
  let hs := (chunks16 (bytesToWords (sha256Pad msg))).foldl sha256Chunk sha256H0
  ⟨(hs.map wordToHex).flatten⟩

/-! ### Errors

Python exceptions that the embedded slice can raise, as explicit values. -/

inductive Err where
  /-- Python `KeyError` from `zipfile.ZipFile.open` on a missing member name. -/
  | keyError
  /-- Python `ValueError('analyzed once')` from the second `Context.analyze` call. -/
  | alreadyAnalyzed
  /-- Python `TypeError` from `os.path.join(None, ...)` when `self.wd` is unset. -/
  | typeError
  /-- Python `AssertionError` from `assert self.wd is not None`. -/
  | assertionError
deriving DecidableEq, Repr

/-! ### Zip archives and fingerprinting (`Context.fingerprint_of`, `Context.workdir_of`) -/

/-- One member of a zip archive, with its decompressed content bytes. -/
structure ZipEntry where
  name : String
  content : List Nat
deriving DecidableEq, Repr

/-- A zip archive is its member list, in file order. -/
abbrev Zip := List ZipEntry

/-- Model of `ZipFile(...).open(n).read()`: `ZipFile` builds its name table in member
order with later duplicates overwriting earlier ones, so the last member
with the given name wins; a missing name raises `KeyError`. -/
def zipOpenRead (z : Zip) (n : String) : Option (List Nat) :=
  ((z.filter (fun e => e.name = n)).getLast?).map ZipEntry.content

/-- Model of `Context.fingerprint_of`: SHA-256 hex digest of the archive's
`META-INF/MANIFEST.MF` member; `KeyError` if the member is absent. -/
def fingerprint_of (apk : Zip) : Except Err String :=
  match zipOpenRead apk "META-INF/MANIFEST.MF" with
  | none => .error .keyError
  | some bytes => .ok (sha256Hex bytes)

/-- Model of `Context.workdir_of`:
`os.path.join(os.environ['HOME'], '.trueseeing2', h[:2], h[2:4], h[4:])`
on the fingerprint `h`; propagates the fingerprint's `KeyError`. -/
def workdir_of (home : Path) (apk : Zip) : Except Err Path :=
  (fingerprint_of apk).map (fun hashed =>
    home ++ [".trueseeing2", hashed.take 2, (hashed.drop 2).take 2, hashed.drop 4])

/-! ### The filesystem and the analysis context -/

/-- The persisted Fact Store for one workdir.  Modelled from the spec:
`trueseeing.store.Store` (not under `src/`) is "a persistent, append-only
index built once per analyzed package"; we keep its content abstract as a
list of facts. -/
abbrev Store := List String

/-- The on-disk world threaded through the operations: existing directories
and files, file text content, the persisted Fact Store of each workdir, and
two instrumentation counters (number of disassembler-subprocess and of
parser/ingestion invocations). -/
structure FS where
  dirs : List Path
  files : List Path
  content : Path → String
  stores : Path → Store
  disasmCount : Nat
  parseCount : Nat

/-- The `Context.__init__` state.  The Python object keeps the memoized values
in the `self.state` dict under the string keys `'ts2.store'`,
`'ts2.context.disassembled_classes'`, `'ts2.context.disassembled_resources'`
and `'ts2.context.string_resource_files'`; a key being present in the dict
is modelled as the corresponding field being `some`. -/
structure Context where
  apk : Option Zip := none
  wd : Option Path := none
  cacheStore : Option Path := none
  cacheClasses : Option (List Path) := none
  cacheResources : Option (List Path) := none
  cacheStringFiles : Option (List Path) := none

/-- Model of `glob.glob(os.path.join(wd, 'smali*/'))`: the immediate subdirectories
of `wd` whose final segment starts with `smali` (the trailing `/` in the
pattern restricts the glob to directories); the empty list — not an error —
when nothing matches, including when `wd` itself does not exist. -/
def smaliRoots (fs : FS) (wd : Path) : List Path :=
  fs.dirs.filter (fun d =>
    isAnc wd d && decide (d.length = wd.length + 1) && startsWithCh "smali".data (d.getLastD ""))

/-- The walk body of `Context.disassembled_classes`: for every matching
smali root, every file below it whose name ends in `.smali`.  `os.walk` on
a missing directory silently yields nothing. -/
def computeClasses (fs : FS) (wd : Path) : List Path :=
  (smaliRoots fs wd).flatMap (fun d =>
    fs.files.filter (fun f => underDir d f && endsWithCh ".smali".data (f.getLastD "")))

/-- The walk body of `Context.disassembled_resources`: every file below
`wd/res` whose name ends in `.xml`. -/
def computeResources (fs : FS) (wd : Path) : List Path :=
  fs.files.filter (fun f =>
    underDir (wd ++ ["res"]) f && endsWithCh ".xml".data (f.getLastD ""))

/-- Test that `pat` occurs as a contiguous run somewhere in the list (Python's `in`
on strings). -/
def containsSub {α : Type} [DecidableEq α] (pat : List α) : List α → Bool
  | [] => isAnc pat []
  | c :: rest => isAnc pat (c :: rest) || containsSub pat rest

/-- The walk body of `Context.string_resource_files`: every file below
`wd/res/values` whose name contains the substring `strings`. -/
def computeStringFiles (fs : FS) (wd : Path) : List Path :=
  fs.files.filter (fun f =>
    underDir (wd ++ ["res", "values"]) f && containsSub "strings".data (f.getLastD "").data)

/-- Model of `Context.disassembled_classes`: return the memoized list if the state
key is present; otherwise seed the memo with `[]`, walk the smali roots,
store and return the result.  When `self.wd` is `None` the seeded empty
memo survives the `TypeError` raised by `os.path.join(None, ...)`. -/
def Context.disassembled_classes (fs : FS) (c : Context) :
    Except Err (List Path) × Context :=
  match c.cacheClasses with
  | some ps => (.ok ps, c)
  | none =>
    match c.wd with
    | none => (.error .typeError, { c with cacheClasses := some [] })
    | some w =>
      let ps := computeClasses fs w
      (.ok ps, { c with cacheClasses := some ps })

/-- Model of `Context.disassembled_resources`: same memoization shape over `wd/res`. -/
def Context.disassembled_resources (fs : FS) (c : Context) :
    Except Err (List Path) × Context :=
  match c.cacheResources with
  | some ps => (.ok ps, c)
  | none =>
    match c.wd with
    | none => (.error .typeError, { c with cacheResources := some [] })
    | some w =>
      let ps := computeResources fs w
      (.ok ps, { c with cacheResources := some ps })

/-- Model of `Context.string_resource_files`: same memoization shape over
`wd/res/values`. -/
def Context.string_resource_files (fs : FS) (c : Context) :
    Except Err (List Path) × Context :=
  match c.cacheStringFiles with
  | some ps => (.ok ps, c)
  | none =>
    match c.wd with
    | none => (.error .typeError, { c with cacheStringFiles := some [] })
    | some w =>
      let ps := computeStringFiles fs w
      (.ok ps, { c with cacheStringFiles := some ps })

/-- Model of `Context.store`: `assert self.wd is not None`, then return the memoized
`Store(self.wd)` handle, opening (and memoizing) it on first use.  The
handle is identified by the workdir it points at; the persisted content
lives in `FS.stores`. -/
def Context.store (c : Context) : Except Err (Path × Context) :=
  match c.wd with
  | none => .error .assertionError
  | some w =>
    match c.cacheStore with
    | some p => .ok (p, c)
    | none => .ok (w, { c with cacheStore := some w })

/-- Result of `Context.analyze`: the context after the call, the filesystem
after the call, and the exception if one propagated. -/
structure AnalyzeOut where
  ctx : Context
  fs : FS
  err : Option Err

/-- Model of `Context.analyze`.  `disasm` models the apktool subprocess (out of
scope per the spec: "invocation of the external disassembler (a subprocess
producing the on-disk class-file tree)"): it yields the produced file list
and their contents.  `ingest` models `trueseeing.code.parse.SmaliAnalyzer`
(not under `src/`); modelled from the spec: ingestion turns the joined
class-file text into the Fact Store content, exactly once per package.

Control flow from the source: a second call (`self.wd is not None`) raises
`ValueError('analyzed once')` before touching anything; otherwise the
workdir is derived from the fingerprint, `os.makedirs` raises `OSError`
exactly when the directory already exists, in which case the handler
swallows it and the `else:` branch — disassembly and ingestion — is
skipped. -/
def Context.analyze (disasm : Zip → Path → List Path × (Path → String))
    (ingest : String → Store) (home : Path)
    (c : Context) (apk : Zip) (fs : FS) : AnalyzeOut :=
  match c.wd with
  | some _ => ⟨c, fs, some .alreadyAnalyzed⟩
  | none =>
    let c0 := { c with apk := some apk }
    match workdir_of home apk with
    | .error e => ⟨c0, fs, some e⟩
    | .ok w =>
      let c1 := { c0 with wd := some w }
      if w ∈ fs.dirs then
        ⟨c1, fs, none⟩
      else
        let fs1 := { fs with dirs := fs.dirs ++ [w] }
        let dout := disasm apk w
        let fs2 : FS :=
          { fs1 with
            files := fs1.files ++ dout.1
            content := fun p => if p ∈ dout.1 then dout.2 p else fs1.content p
            disasmCount := fs1.disasmCount + 1 }
        match Context.store c1 with
        | .error e => ⟨c1, fs2, some e⟩
        | .ok sc =>
          let r := Context.disassembled_classes fs2 sc.2
          match r.1 with
          | .error e => ⟨r.2, fs2, some e⟩
          | .ok classes =>
            let text := String.intercalate "\n" (classes.map fs2.content)
            let fs3 : FS :=
              { fs2 with
                stores := fun p => if p = sc.1 then ingest text else fs2.stores p
                parseCount := fs2.parseCount + 1 }
            ⟨r.2, fs3, none⟩

/-! ### The path-to-dalvik-type transform
(`Context.source_name_of_disassembled_class`,
`Context.dalvik_type_of_disassembled_class`) -/

/-- Fueled scanner behind `replaceAllCh`. -/
def replaceAllChAux (pat rep : List Char) : Nat → List Char → List Char
  | 0, s => s
  | _, [] => []
  | fuel + 1, c :: rest =>
    if pat ≠ [] && isAnc pat (c :: rest) then
      rep ++ replaceAllChAux pat rep fuel ((c :: rest).drop pat.length)
    else
      c :: replaceAllChAux pat rep fuel rest

/-- Python `str.replace(pat, rep)` for a non-empty `pat`: scan left to
right, replacing every non-overlapping occurrence.  The fuel (the input
length) is enough for the whole scan. -/
def replaceAllCh (pat rep s : List Char) : List Char :=
  replaceAllChAux pat rep s.length s

/-- Model of `os.path.join(*segments)` on POSIX: segments joined with `/`
(the empty join, which Python rejects with `TypeError`, is modelled as the
empty string; no claim touches it). -/
def joinSegsCh : List String → List Char
  | [] => []
  | [s] => s.data
  | s :: rest => s.data ++ '/' :: joinSegsCh rest

/-- Model of `Context.source_name_of_disassembled_class`:
`os.path.join(*os.path.relpath(fn, self.wd).split(os.sep)[1:])` — for a
file below the workdir this strips the workdir segments, drops the leading
disassembly-root segment, and joins the remainder with `/`. -/
def Context.source_name_of_disassembled_class (wd fn : Path) : String :=
  ⟨joinSegsCh (fn.drop (wd.length + 1))⟩

/-- Model of `Context.dalvik_type_of_disassembled_class`:
`'L%s;' % source_name.replace('.smali', '')` — note the `replace` removes
every occurrence of the substring `.smali`, not only a terminal
extension. -/
def Context.dalvik_type_of_disassembled_class (wd fn : Path) : String :=
  "L" ++ ⟨replaceAllCh ".smali".data [] (Context.source_name_of_disassembled_class wd fn).data⟩ ++ ";"

/-! ### `SearchCommand._search_defined_package`
(src/trueseeing/app/cmd/android/search.py) -/

/-- Model of `os.path.dirname` on POSIX: everything up to and including the last
`/`, then trailing slashes stripped unless the result is all slashes;
the empty string when there is no `/`. -/
def dirname (s : String) : String :=
  let headRev := s.data.reverse.dropWhile (· ≠ '/')
  if headRev ≠ [] ∧ ¬ headRev.all (· = '/') then
    ⟨(headRev.dropWhile (· = '/')).reverse⟩
  else
    ⟨headRev.reverse⟩

/-- Model of `re.match('.', s) is not None`: the default pattern `.`
matches iff the string has a first character and it is not a newline
(`re.DOTALL` is not set). -/
def dotMatch (s : String) : Bool :=
  match s.data with
  | [] => false
  | c :: _ => decide (c ≠ '\n')

/-- The output of `SearchCommand._search_defined_package` for a given
pattern (abstracted to the predicate `re.match(pat, ·) is not None`) and
the source names of the context's disassembled classes: collect
`os.path.dirname` of every name ending in `.smali` into a set, iterate it
in sorted order, and emit the members matching the pattern. -/
def searchDefinedPackage (matchesPat : String → Bool) (sourceNames : List String) :
    List String :=
  let packages :=
    ((sourceNames.filter (fun fn => endsWithCh ".smali".data fn)).map dirname).dedup
  (List.insertionSort (· ≤ ·) packages).filter matchesPat

/-! ### `ConfigCommand._mod` (src/trueseeing/app/cmd/config.py) -/

/-- The mutable state `ConfigCommand._mod` acts on: the helper's config
store and the command's own `self._stash`. -/
structure ConfState where
  config : List (String × String)
  stash : List (String × String)
deriving DecidableEq, Repr

def lookupKV (m : List (String × String)) (k : String) : Option String :=
  (m.find? (fun p => p.1 = k)).map Prod.snd

def setKV (m : List (String × String)) (k v : String) : List (String × String) :=
  m.map (fun p => if p.1 = k then (k, v) else p)

def delKV (m : List (String × String)) (k : String) : List (String × String) :=
  m.filter (fun p => p.1 ≠ k)

/-- Modelled from the spec: `CommandHelper.get_config` belongs to the
out-of-scope "configuration key/value storage"; it returns the value bound
to a known key and raises `InvalidConfigKeyError` (here `none`) on an
unknown one. -/
def get_config (st : ConfState) (k : String) : Option String :=
  lookupKV st.config k

/-- Modelled from the spec: `CommandHelper.set_config` updates the value of
a known key and raises `InvalidConfigKeyError` (here `none`) on an unknown
one. -/
def set_config (st : ConfState) (k v : String) : Option ConfState :=
  if (lookupKV st.config k).isSome then some { st with config := setKV st.config k v }
  else none

/-- Python `str.split(sep)` for a one-character separator, on the
character list:  `"a=b=c"` gives `["a","b","c"]`, `"=x"` gives
`["", "x"]`, `""` gives `[""]`. -/
def splitOnCh (sep : Char) : List Char → List (List Char)
  | [] => [[]]
  | c :: rest =>
    let r := splitOnCh sep rest
    if c = sep then [] :: r
    else
      match r with
      | [] => [[c]]
      | h :: t => (c :: h) :: t

/-- Model of `val.split('=')` as a list of strings. -/
def pySplitEq (val : String) : List String :=
  (splitOnCh '=' val.data).map (fun l => (⟨l⟩ : String))

/-- The two modifier events `_mod` receives. -/
inductive MEv where
  | evBegin
  | evEnd
deriving DecidableEq, Repr

/-- The ways `_mod` can abort: `ui.fatal` calls, the uncaught `ValueError`
from unpacking a multi-`=` split, and the `assert` on `end`. -/
inductive ModErr where
  | fatalNeedValue
  | fatalAlreadyBound
  | fatalUnknownKey
  | valueError
  | assertionError
deriving DecidableEq, Repr

/-- Model of `ConfigCommand._mod`: returns the state after the call together with
the abort condition if one occurred.  On `begin`, an already-stashed key is
fatal; otherwise the current value is read, the new value set, and the old
value stashed.  On `end`, the stashed value is written back inside `try:`,
and the `finally:` removes the stash binding on both exit paths. -/
def ConfigCommand.mod (ev : MEv) (val : String) (st : ConfState) :
    ConfState × Option ModErr :=
  if ¬ val.data.contains '=' then (st, some .fatalNeedValue)
  else
    match pySplitEq val with
    | [k, v] =>
      match ev with
      | .evBegin =>
        if (lookupKV st.stash k).isSome then (st, some .fatalAlreadyBound)
        else
          match get_config st k with
          | none => (st, some .fatalUnknownKey)
          | some ov =>
            match set_config st k v with
            | none => (st, some .fatalUnknownKey)
            | some st1 => ({ st1 with stash := (k, ov) :: st1.stash }, none)
      | .evEnd =>
        match lookupKV st.stash k with
        | none => (st, some .assertionError)
        | some ov =>
          match set_config st k ov with
          | some st1 => ({ st1 with stash := delKV st1.stash k }, none)
          | none => ({ st with stash := delKV st.stash k }, some .fatalUnknownKey)
    | _ => (st, some .valueError)

/-! ## Helper lemmas -/

theorem store_preserves_wd {c c' : Context} {p : Path}
    (h : Context.store c = .ok (p, c')) : c'.wd = c.wd := by
  unfold Context.store at h
  cases hw : c.wd with
  | none => simp [hw] at h
  | some w =>
    cases hs : c.cacheStore with
    | none =>
      simp only [hw, hs, Except.ok.injEq, Prod.mk.injEq] at h
      rw [← h.2]
      try simpa using hw
    | some p' =>
      simp only [hw, hs, Except.ok.injEq, Prod.mk.injEq] at h
      rw [← h.2]
      try simpa using hw

theorem store_ok_of_wd {c : Context} {w : Path} (h : c.wd = some w) :
    ∃ p c', Context.store c = .ok (p, c') := by
  unfold Context.store
  rw [h]
  cases c.cacheStore with
  | none => exact ⟨_, _, rfl⟩
  | some p => exact ⟨_, _, rfl⟩

theorem dc_preserves_wd (fs : FS) (c : Context) :
    (Context.disassembled_classes fs c).2.wd = c.wd := by
  unfold Context.disassembled_classes
  cases c.cacheClasses with
  | some ps => rfl
  | none => cases hw : c.wd <;> simp [hw]

theorem dc_not_error (fs : FS) {c : Context} {w : Path} (h : c.wd = some w)
    (e : Err) : (Context.disassembled_classes fs c).1 ≠ .error e := by
  unfold Context.disassembled_classes
  cases c.cacheClasses with
  | some ps => simp
  | none => rw [h]; simp

/-- On the fresh (`self.wd is None`) path with a fingerprintable package,
`analyze` always returns with the workdir recorded and no exception. -/
theorem analyze_fresh_sets_wd
    (disasm : Zip → Path → List Path × (Path → String)) (ingest : String → Store)
    (home : Path) (c : Context) (apk : Zip) (fs : FS) (w : Path)
    (hfresh : c.wd = none) (hwd : workdir_of home apk = .ok w) :
    ∃ cOut fsOut, Context.analyze disasm ingest home c apk fs = ⟨cOut, fsOut, none⟩ ∧
      cOut.wd = some w := by
  unfold Context.analyze
  rw [hfresh, hwd]
  by_cases hdir : w ∈ fs.dirs
  · exact ⟨{ c with apk := some apk, wd := some w }, fs, by simp [hdir], rfl⟩
  · simp only [hdir, if_false]
    have hwd1 : ({ c with apk := some apk, wd := some w } : Context).wd = some w := rfl
    split
    · next e heqst =>
      obtain ⟨p, c', hst⟩ := store_ok_of_wd hwd1
      rw [hst] at heqst
      exact absurd heqst (by simp)
    · next sc heqst =>
      have hwd2 : sc.2.wd = some w := by rw [store_preserves_wd heqst]
      split
      · next e heq => exact absurd heq (dc_not_error _ hwd2 e)
      · next classes heq =>
        exact ⟨_, _, rfl, by rw [dc_preserves_wd]; exact hwd2⟩

/-- C1: a `Context` that has gone through `analyze` once has its workdir
set, and any second `analyze` call fails with the already-analyzed
`ValueError` while leaving the context, the filesystem and in particular
the persisted Fact Store content exactly as the first call left them. -/
theorem analyze_second_call_fails
    (disasm : Zip → Path → List Path × (Path → String)) (ingest : String → Store)
    (home : Path) (c : Context) (apk apk2 : Zip) (fs : FS) (w : Path)
    (hfresh : c.wd = none) (hwd : workdir_of home apk = .ok w) :
    (Context.analyze disasm ingest home c apk fs).ctx.wd = some w ∧
    (Context.analyze disasm ingest home c apk fs).err = none ∧
    Context.analyze disasm ingest home
        (Context.analyze disasm ingest home c apk fs).ctx apk2
        (Context.analyze disasm ingest home c apk fs).fs =
      ⟨(Context.analyze disasm ingest home c apk fs).ctx,
       (Context.analyze disasm ingest home c apk fs).fs,
       some .alreadyAnalyzed⟩ ∧
    (Context.analyze disasm ingest home
        (Context.analyze disasm ingest home c apk fs).ctx apk2
        (Context.analyze disasm ingest home c apk fs).fs).fs.stores =
      (Context.analyze disasm ingest home c apk fs).fs.stores := by
  obtain ⟨cOut, fsOut, heq, hwdOut⟩ :=
    analyze_fresh_sets_wd disasm ingest home c apk fs w hfresh hwd
  rw [heq]
  have hsecond : Context.analyze disasm ingest home cOut apk2 fsOut =
      ⟨cOut, fsOut, some .alreadyAnalyzed⟩ := by
    unfold Context.analyze
    rw [hwdOut]
  exact ⟨hwdOut, rfl, hsecond, by rw [hsecond]⟩

/-- C1 witness. -/
def manifestedApk : Zip := [⟨"META-INF/MANIFEST.MF", [97, 98, 99]⟩]

/-- A filesystem in which the workdir of `manifestedApk` already exists. -/
def fsWithWorkdir : FS :=
  { dirs := [["home", ".trueseeing2",
              (sha256Hex [97, 98, 99]).take 2,
              ((sha256Hex [97, 98, 99]).drop 2).take 2,
              (sha256Hex [97, 98, 99]).drop 4]]
    files := []
    content := fun _ => ""
    stores := fun _ => ["fact"]
    disasmCount := 0
    parseCount := 0 }

theorem analyze_second_call_fails_witness :
    (({} : Context).wd = none ∧
      workdir_of ["home"] manifestedApk =
        .ok ["home", ".trueseeing2",
             (sha256Hex [97, 98, 99]).take 2,
             ((sha256Hex [97, 98, 99]).drop 2).take 2,
             (sha256Hex [97, 98, 99]).drop 4]) ∧
    (Context.analyze (fun _ _ => ([], fun _ => "")) (fun _ => []) ["home"] {}
        manifestedApk fsWithWorkdir).err = none :=
  ⟨⟨rfl, rfl⟩,
   (analyze_second_call_fails (fun _ _ => ([], fun _ => "")) (fun _ => []) ["home"] {}
      manifestedApk manifestedApk fsWithWorkdir _ rfl rfl).2.1⟩

/-- C2: when the content-addressed cache directory already exists,
`analyze` on a fresh context performs zero disassembler invocations and
zero parser/ingestion invocations — the filesystem, counters included, is
returned untouched, with directory existence as the only signal consulted —
and the persisted Fact Store opens on the resulting context and serves the
exact content left by the first run, so every query function computes the
same result as it did then. -/
theorem analyze_cached_dir
    (disasm : Zip → Path → List Path × (Path → String)) (ingest : String → Store)
    (home : Path) (c : Context) (apk : Zip) (fs : FS) (w : Path)
    (hfresh : c.wd = none) (hstore : c.cacheStore = none)
    (hwd : workdir_of home apk = .ok w) (hdir : w ∈ fs.dirs) :
    (Context.analyze disasm ingest home c apk fs).err = none ∧
    (Context.analyze disasm ingest home c apk fs).fs = fs ∧
    (Context.analyze disasm ingest home c apk fs).fs.disasmCount = fs.disasmCount ∧
    (Context.analyze disasm ingest home c apk fs).fs.parseCount = fs.parseCount ∧
    (∃ c', Context.store (Context.analyze disasm ingest home c apk fs).ctx = .ok (w, c')) ∧
    ∀ (α : Type) (q : Store → α),
      q ((Context.analyze disasm ingest home c apk fs).fs.stores w) = q (fs.stores w) := by
  have hrun : Context.analyze disasm ingest home c apk fs =
      ⟨{ c with apk := some apk, wd := some w }, fs, none⟩ := by
    unfold Context.analyze
    rw [hfresh, hwd]
    simp [hdir]
  rw [hrun]
  refine ⟨rfl, rfl, rfl, rfl, ?_, fun α q => rfl⟩
  refine ⟨{ c with apk := some apk, wd := some w, cacheStore := some w }, ?_⟩
  unfold Context.store
  simp [hstore]

theorem analyze_cached_dir_witness :
    (({} : Context).wd = none ∧ ({} : Context).cacheStore = none ∧
      workdir_of ["home"] manifestedApk =
        .ok ["home", ".trueseeing2",
             (sha256Hex [97, 98, 99]).take 2,
             ((sha256Hex [97, 98, 99]).drop 2).take 2,
             (sha256Hex [97, 98, 99]).drop 4] ∧
      ["home", ".trueseeing2",
       (sha256Hex [97, 98, 99]).take 2,
       ((sha256Hex [97, 98, 99]).drop 2).take 2,
       (sha256Hex [97, 98, 99]).drop 4] ∈ fsWithWorkdir.dirs) ∧
    (Context.analyze (fun _ _ => ([], fun _ => "")) (fun _ => []) ["home"] {}
        manifestedApk fsWithWorkdir).fs = fsWithWorkdir :=
  ⟨⟨rfl, rfl, rfl, List.mem_singleton.mpr rfl⟩,
   (analyze_cached_dir (fun _ _ => ([], fun _ => "")) (fun _ => []) ["home"] {}
      manifestedApk fsWithWorkdir _ rfl rfl rfl (List.mem_singleton.mpr rfl)).2.1⟩

/-- C5: two archives with byte-identical `META-INF/MANIFEST.MF` members
fingerprint to the same SHA-256 hex digest, and their cache directories are
the same path `home/.trueseeing2/<h[0:2]>/<h[2:4]>/<h[4:]>`. -/
theorem fingerprint_deterministic (home : Path) (z1 z2 : Zip) (b : List Nat)
    (h1 : zipOpenRead z1 "META-INF/MANIFEST.MF" = some b)
    (h2 : zipOpenRead z2 "META-INF/MANIFEST.MF" = some b) :
    fingerprint_of z1 = .ok (sha256Hex b) ∧
    fingerprint_of z2 = fingerprint_of z1 ∧
    workdir_of home z1 =
      .ok (home ++ [".trueseeing2", (sha256Hex b).take 2,
                    ((sha256Hex b).drop 2).take 2, (sha256Hex b).drop 4]) ∧
    workdir_of home z2 = workdir_of home z1 := by
  have e1 : fingerprint_of z1 = .ok (sha256Hex b) := by
    unfold fingerprint_of
    rw [h1]
  have e2 : fingerprint_of z2 = .ok (sha256Hex b) := by
    unfold fingerprint_of
    rw [h2]
  refine ⟨e1, by rw [e1, e2], ?_, ?_⟩
  · unfold workdir_of
    rw [e1]
    rfl
  · unfold workdir_of
    rw [e1, e2]

/-- A second archive carrying the same manifest bytes as `manifestedApk`
amid different other members. -/
def manifestedApk2 : Zip :=
  [⟨"classes.dex", [1, 2, 3]⟩, ⟨"META-INF/MANIFEST.MF", [97, 98, 99]⟩]

theorem fingerprint_deterministic_witness :
    (zipOpenRead manifestedApk "META-INF/MANIFEST.MF" = some [97, 98, 99] ∧
      zipOpenRead manifestedApk2 "META-INF/MANIFEST.MF" = some [97, 98, 99]) ∧
    fingerprint_of manifestedApk2 = fingerprint_of manifestedApk :=
  ⟨⟨rfl, rfl⟩,
   (fingerprint_deterministic ["home"] manifestedApk manifestedApk2 [97, 98, 99]
      rfl rfl).2.1⟩

/-- C8: an archive with no `META-INF/MANIFEST.MF` member cannot be
fingerprinted — `fingerprint_of` raises `KeyError` — so workdir selection
fails the same way and `analyze` aborts with that error, leaving the
workdir unset and the filesystem untouched. -/
theorem fingerprint_missing_manifest (home : Path) (z : Zip)
    (h : zipOpenRead z "META-INF/MANIFEST.MF" = none) :
    fingerprint_of z = .error .keyError ∧
    workdir_of home z = .error .keyError ∧
    ∀ (disasm : Zip → Path → List Path × (Path → String)) (ingest : String → Store)
      (c : Context) (fs : FS), c.wd = none →
      (Context.analyze disasm ingest home c z fs).err = some .keyError ∧
      (Context.analyze disasm ingest home c z fs).ctx.wd = none ∧
      (Context.analyze disasm ingest home c z fs).fs = fs := by
  have e1 : fingerprint_of z = .error .keyError := by
    unfold fingerprint_of
    rw [h]
  have e2 : workdir_of home z = .error .keyError := by
    unfold workdir_of
    rw [e1]
    rfl
  refine ⟨e1, e2, fun disasm ingest c fs hfresh => ?_⟩
  have hrun : Context.analyze disasm ingest home c z fs =
      ⟨{ c with apk := some z }, fs, some .keyError⟩ := by
    unfold Context.analyze
    rw [hfresh, e2]
  rw [hrun]
  exact ⟨rfl, hfresh, rfl⟩

/-- An archive lacking the manifest-integrity member. -/
def unmanifestedApk : Zip := [⟨"classes.dex", [1, 2, 3]⟩]

theorem fingerprint_missing_manifest_witness :
    zipOpenRead unmanifestedApk "META-INF/MANIFEST.MF" = none ∧
    fingerprint_of unmanifestedApk = .error .keyError :=
  ⟨rfl, (fingerprint_missing_manifest ["home"] unmanifestedApk rfl).1⟩

/-! ## C6: memoization of the three per-context enumerations -/

theorem dc_memo {fs : FS} {c : Context} {v : List Path} (fs2 : FS)
    (h : (Context.disassembled_classes fs c).1 = .ok v) :
    Context.disassembled_classes fs2 (Context.disassembled_classes fs c).2 =
      (.ok v, (Context.disassembled_classes fs c).2) := by
  unfold Context.disassembled_classes at h ⊢
  cases hcc : c.cacheClasses with
  | some ps =>
    rw [hcc] at h
    simp only [Except.ok.injEq] at h
    simp [hcc, h]
  | none =>
    cases hw : c.wd with
    | none => rw [hcc, hw] at h; exact absurd h (by simp)
    | some w =>
      rw [hcc, hw] at h
      simp only [Except.ok.injEq] at h
      simp [hcc, hw, h]

theorem dr_memo {fs : FS} {c : Context} {v : List Path} (fs2 : FS)
    (h : (Context.disassembled_resources fs c).1 = .ok v) :
    Context.disassembled_resources fs2 (Context.disassembled_resources fs c).2 =
      (.ok v, (Context.disassembled_resources fs c).2) := by
  unfold Context.disassembled_resources at h ⊢
  cases hcc : c.cacheResources with
  | some ps =>
    rw [hcc] at h
    simp only [Except.ok.injEq] at h
    simp [hcc, h]
  | none =>
    cases hw : c.wd with
    | none => rw [hcc, hw] at h; exact absurd h (by simp)
    | some w =>
      rw [hcc, hw] at h
      simp only [Except.ok.injEq] at h
      simp [hcc, hw, h]

theorem srf_memo {fs : FS} {c : Context} {v : List Path} (fs2 : FS)
    (h : (Context.string_resource_files fs c).1 = .ok v) :
    Context.string_resource_files fs2 (Context.string_resource_files fs c).2 =
      (.ok v, (Context.string_resource_files fs c).2) := by
  unfold Context.string_resource_files at h ⊢
  cases hcc : c.cacheStringFiles with
  | some ps =>
    rw [hcc] at h
    simp only [Except.ok.injEq] at h
    simp [hcc, h]
  | none =>
    cases hw : c.wd with
    | none => rw [hcc, hw] at h; exact absurd h (by simp)
    | some w =>
      rw [hcc, hw] at h
      simp only [Except.ok.injEq] at h
      simp [hcc, hw, h]

/-- C6: each of the disassembled-class, disassembled-resource and
string-resource-file enumerations is memoized per context: once a first
call has produced a value, a later call returns exactly that value and
leaves the context unchanged, whatever the filesystem looks like by then
(it is not re-read). -/
theorem memoized_enumerations (fs fsLater : FS) (c : Context) (vc vr vs : List Path)
    (hc : (Context.disassembled_classes fs c).1 = .ok vc)
    (hr : (Context.disassembled_resources fs c).1 = .ok vr)
    (hs : (Context.string_resource_files fs c).1 = .ok vs) :
    Context.disassembled_classes fsLater (Context.disassembled_classes fs c).2 =
      (.ok vc, (Context.disassembled_classes fs c).2) ∧
    Context.disassembled_resources fsLater (Context.disassembled_resources fs c).2 =
      (.ok vr, (Context.disassembled_resources fs c).2) ∧
    Context.string_resource_files fsLater (Context.string_resource_files fs c).2 =
      (.ok vs, (Context.string_resource_files fs c).2) :=
  ⟨dc_memo fsLater hc, dr_memo fsLater hr, srf_memo fsLater hs⟩

/-- A context whose workdir is set, with a populated filesystem, and a
later filesystem in which the tree has changed. -/
def ctxMemo : Context := { wd := some ["h"] }

def fsMemoA : FS :=
  { dirs := [["h"], ["h", "smali"]]
    files := [["h", "smali", "A.smali"], ["h", "res", "a.xml"],
              ["h", "res", "values", "strings.xml"]]
    content := fun _ => ""
    stores := fun _ => []
    disasmCount := 0
    parseCount := 0 }

def fsMemoB : FS :=
  { dirs := []
    files := []
    content := fun _ => ""
    stores := fun _ => []
    disasmCount := 0
    parseCount := 0 }

theorem memoized_enumerations_witness :
    ((Context.disassembled_classes fsMemoA ctxMemo).1 = .ok [["h", "smali", "A.smali"]] ∧
      (Context.disassembled_resources fsMemoA ctxMemo).1 =
        .ok [["h", "res", "a.xml"], ["h", "res", "values", "strings.xml"]] ∧
      (Context.string_resource_files fsMemoA ctxMemo).1 =
        .ok [["h", "res", "values", "strings.xml"]]) ∧
    Context.disassembled_classes fsMemoB (Context.disassembled_classes fsMemoA ctxMemo).2 =
      (.ok [["h", "smali", "A.smali"]], (Context.disassembled_classes fsMemoA ctxMemo).2) :=
  ⟨⟨rfl, rfl, rfl⟩,
   (memoized_enumerations fsMemoA fsMemoB ctxMemo _ _ _ rfl rfl rfl).1⟩

/-! ## C4: behavior of the enumerations when the workdir root is missing

`glob.glob` returns an empty list when nothing matches its pattern — also
when the base directory itself does not exist — and `os.walk` silently
yields nothing for a missing directory (`scandir` errors are swallowed by
its default `onerror=None`), so neither enumeration can raise a filesystem
error for a missing root. -/

/-- An on-disk world with no directories and no files at all: in
particular the workdir of `ctxMissingRoot` does not exist. -/
def fsNothing : FS :=
  { dirs := []
    files := []
    content := fun _ => ""
    stores := fun _ => []
    disasmCount := 0
    parseCount := 0 }

/-- A fresh context whose workdir is set to a path that does not exist in
`fsNothing`. -/
def ctxMissingRoot : Context := { wd := some ["home", ".trueseeing2", "aa", "bb", "cc"] }

/-- C4 counterexample: with the workdir root absent from the filesystem,
both enumerations return an empty result (`.ok []`) instead of failing
with a filesystem error. -/
theorem enumerations_missing_root_no_error :
    (Context.disassembled_classes fsNothing ctxMissingRoot).1 = .ok [] ∧
    (Context.disassembled_resources fsNothing ctxMissingRoot).1 = .ok [] :=
  ⟨rfl, rfl⟩

/-- C4 amended: whether the workdir root is missing or exists while holding
no class file (no `.smali`-named file under any smali root) and no resource
file (no `.xml`-named file under `res`), both enumerations return the empty
result set and never a filesystem error.  Unrelated files — a workdir
holding only, say, `AndroidManifest.xml` — are allowed. -/
theorem enumerations_empty_without_files (fs : FS) (c : Context) (w : Path)
    (hw : c.wd = some w) (hcc : c.cacheClasses = none) (hcr : c.cacheResources = none)
    (hsmali : ∀ f ∈ fs.files, endsWithCh ".smali".data (f.getLastD "") = true →
      ∀ d ∈ smaliRoots fs w, underDir d f = false)
    (hxml : ∀ f ∈ fs.files, endsWithCh ".xml".data (f.getLastD "") = true →
      underDir (w ++ ["res"]) f = false) :
    (Context.disassembled_classes fs c).1 = .ok [] ∧
    (Context.disassembled_resources fs c).1 = .ok [] := by
  have hcls : computeClasses fs w = [] := by
    unfold computeClasses
    apply List.flatMap_eq_nil_iff.mpr
    intro d hd
    apply List.filter_eq_nil_iff.mpr
    intro f hf
    simp only [Bool.and_eq_true, not_and]
    intro hu hend
    have hfalse := hsmali f hf hend d hd
    rw [hfalse] at hu
    exact Bool.false_ne_true hu
  have hres : computeResources fs w = [] := by
    unfold computeResources
    apply List.filter_eq_nil_iff.mpr
    intro f hf
    simp only [Bool.and_eq_true, not_and]
    intro hu hend
    have hfalse := hxml f hf hend
    rw [hfalse] at hu
    exact Bool.false_ne_true hu
  constructor
  · unfold Context.disassembled_classes
    simp [hcc, hw, hcls]
  · unfold Context.disassembled_resources
    simp [hcr, hw, hres]

/-- A workdir that exists and holds typical apktool by-products — the
manifest at the top, a non-class file under the smali root, a non-xml file
under `res` — but no class or resource files. -/
def fsManifestOnly : FS :=
  { dirs := [["h"], ["h", "smali"], ["h", "res"]]
    files := [["h", "AndroidManifest.xml"], ["h", "smali", "notes.txt"],
              ["h", "res", "raw.bin"]]
    content := fun _ => ""
    stores := fun _ => []
    disasmCount := 0
    parseCount := 0 }

def ctxManifestOnly : Context := { wd := some ["h"] }

theorem enumerations_empty_without_files_witness :
    (ctxManifestOnly.wd = some ["h"] ∧
      ctxManifestOnly.cacheClasses = none ∧ ctxManifestOnly.cacheResources = none ∧
      (∀ f ∈ fsManifestOnly.files, endsWithCh ".smali".data (f.getLastD "") = true →
        ∀ d ∈ smaliRoots fsManifestOnly ["h"], underDir d f = false) ∧
      (∀ f ∈ fsManifestOnly.files, endsWithCh ".xml".data (f.getLastD "") = true →
        underDir (["h"] ++ ["res"]) f = false)) ∧
    (Context.disassembled_classes fsManifestOnly ctxManifestOnly).1 = .ok [] ∧
    (Context.disassembled_resources fsManifestOnly ctxManifestOnly).1 = .ok [] :=
  ⟨⟨rfl, rfl, rfl, by decide, by decide⟩,
   enumerations_empty_without_files fsManifestOnly ctxManifestOnly ["h"] rfl rfl rfl
     (by decide) (by decide)⟩

/-! ## C7 and C10: the defined-package search -/

/-- C7: for a fixed class-file list and pattern, the defined-package
search emits a strictly increasing (hence duplicate-free, lexicographic)
sequence, whose members are exactly the matching directory names of
`.smali` source files — so two runs over identical inputs produce the
identical output sequence. -/
theorem search_defined_package_deterministic (p : String → Bool) (names : List String) :
    List.Sorted (· < ·) (searchDefinedPackage p names) ∧
    ∀ s, s ∈ searchDefinedPackage p names ↔
      (p s = true ∧ ∃ fn, fn ∈ names ∧ endsWithCh ".smali".data fn = true ∧
        dirname fn = s) := by
  constructor
  · have hsorted : List.Sorted (· ≤ ·)
        (((List.insertionSort (· ≤ ·)
          ((names.filter (fun fn => endsWithCh ".smali".data fn)).map dirname).dedup)).filter p) :=
      (List.sorted_insertionSort _ _).filter p
    have hnodup : (((List.insertionSort (· ≤ ·)
        ((names.filter (fun fn => endsWithCh ".smali".data fn)).map dirname).dedup)).filter p).Nodup :=
      (((List.perm_insertionSort _ _).symm).nodup (List.nodup_dedup _)).filter p
    have hpair := List.Pairwise.and hsorted hnodup
    exact hpair.imp (fun hab => lt_of_le_of_ne hab.1 hab.2)
  · intro s
    have hperm := List.perm_insertionSort (· ≤ ·)
      ((names.filter (fun fn => endsWithCh ".smali".data fn)).map dirname).dedup
    simp only [searchDefinedPackage, List.mem_filter, hperm.mem_iff,
               List.mem_dedup, List.mem_map]
    constructor
    · rintro ⟨⟨fn, ⟨hfn, hsm⟩, rfl⟩, hp⟩
      exact ⟨hp, fn, hfn, hsm, rfl⟩
    · rintro ⟨hp, fn, hfn, hsm, rfl⟩
      exact ⟨⟨fn, ⟨hfn, hsm⟩, rfl⟩, hp⟩

/-- C10: a class file sitting directly under a disassembly root has the
empty string as its package; `re.match('.', '')` fails, so the root
package is never listed, not even under the default match-anything
pattern. -/
theorem root_package_not_listed (names : List String) (fn : String)
    (hfn : fn ∈ names) (hslash : '/' ∉ fn.data) :
    dirname fn = "" ∧ dotMatch "" = false ∧
    "" ∉ searchDefinedPackage dotMatch names := by
  have hdrop : fn.data.reverse.dropWhile (fun c => c ≠ '/') = [] := by
    apply List.dropWhile_eq_nil_iff.mpr
    intro x hx
    simp only [ne_eq, decide_eq_true_eq]
    intro hxe
    apply hslash
    rw [← hxe]
    exact List.mem_reverse.mp hx
  have hdn : dirname fn = "" := by
    unfold dirname
    rw [hdrop]
    simp
  refine ⟨hdn, rfl, ?_⟩
  intro hmem
  have := (List.mem_filter.mp hmem).2
  simp [dotMatch] at this

theorem root_package_not_listed_witness :
    (("a.smali" : String) ∈ ["a.smali", "com/b.smali"] ∧ '/' ∉ ("a.smali" : String).data) ∧
    "" ∉ searchDefinedPackage dotMatch ["a.smali", "com/b.smali"] :=
  ⟨⟨by decide, by decide⟩,
   (root_package_not_listed ["a.smali", "com/b.smali"] "a.smali"
      (by decide) (by decide)).2.2⟩

/-! ## C3: the path-to-type transform and its injectivity -/

theorem replaceAllChAux_nil (pat rep : List Char) (fuel : Nat) :
    replaceAllChAux pat rep fuel [] = [] := by
  cases fuel <;> rfl

theorem isAnc_refl {α : Type} [DecidableEq α] (l : List α) : isAnc l l = true := by
  have := isAnc_append l []
  rwa [List.append_nil] at this

/-- When the pattern occurs in `stem ++ pat` only as the terminal run,
the scanner copies the stem and replaces the terminal occurrence. -/
theorem replaceAllChAux_terminal (pat rep : List Char) (hpat : pat ≠ []) :
    ∀ (stem : List Char) (fuel : Nat), stem.length + pat.length ≤ fuel →
      (∀ i < stem.length, isAnc pat ((stem ++ pat).drop i) = false) →
      replaceAllChAux pat rep fuel (stem ++ pat) = stem ++ rep := by
  intro stem
  induction stem with
  | nil =>
    intro fuel hf _
    cases fuel with
    | zero =>
      exfalso
      have : 0 < pat.length := List.length_pos.mpr hpat
      simp only [List.length_nil, Nat.zero_add, Nat.le_zero] at hf
      omega
    | succ f =>
      obtain ⟨p, ps, hp⟩ := List.exists_cons_of_ne_nil hpat
      subst hp
      simp only [List.nil_append, replaceAllChAux]
      rw [isAnc_refl]
      simp [List.drop_length, replaceAllChAux_nil]
  | cons a stem' ih =>
    intro fuel hf hocc
    cases fuel with
    | zero =>
      exfalso
      simp only [List.length_cons, Nat.le_zero] at hf
      omega
    | succ f =>
      have hcond : isAnc pat (a :: (stem' ++ pat)) = false := by
        have := hocc 0 (by simp)
        simpa using this
      simp only [List.cons_append, replaceAllChAux, List.append_eq]
      rw [hcond]
      simp only [Bool.and_false, if_false]
      rw [ih f (by simp only [List.length_cons] at hf; omega)
        (fun i hi => by
          have := hocc (i + 1) (by simp only [List.length_cons]; omega)
          simpa [List.drop_succ_cons] using this)]
      rfl

/-- Python `str.replace` of a non-empty pattern occurring only terminally. -/
theorem replaceAllCh_terminal (pat rep stem : List Char) (hpat : pat ≠ [])
    (hocc : ∀ i < stem.length, isAnc pat ((stem ++ pat).drop i) = false) :
    replaceAllCh pat rep (stem ++ pat) = stem ++ rep := by
  unfold replaceAllCh
  exact replaceAllChAux_terminal pat rep hpat stem (stem ++ pat).length
    (by simp) hocc

/-- Cancellation around the first occurrence of a marker character. -/
theorem split_first_marker {c : Char} :
    ∀ {as as' bs bs' : List Char}, c ∉ as → c ∉ as' →
      as ++ c :: bs = as' ++ c :: bs' → as = as' ∧ bs = bs' := by
  intro as
  induction as with
  | nil =>
    intro as' bs bs' _ h2 he
    cases as' with
    | nil =>
      simp only [List.nil_append] at he
      injection he with _ h
      exact ⟨rfl, h⟩
    | cons x t =>
      simp only [List.nil_append, List.cons_append] at he
      injection he with hcx _
      exact absurd (hcx ▸ List.mem_cons_self x t) h2
  | cons x t ih =>
    intro as' bs bs' h1 h2 he
    cases as' with
    | nil =>
      simp only [List.cons_append, List.nil_append] at he
      injection he with hcx _
      exact absurd (hcx ▸ List.mem_cons_self x t) h1
    | cons y u =>
      simp only [List.cons_append] at he
      injection he with hxy he'
      have h1' : c ∉ t := fun hm => h1 (List.mem_cons_of_mem _ hm)
      have h2' : c ∉ u := fun hm => h2 (List.mem_cons_of_mem _ hm)
      obtain ⟨ht, hb⟩ := ih h1' h2' he'
      exact ⟨by rw [hxy, ht], hb⟩

theorem joinSegsCh_cons (s : String) (t : List String) (h : t ≠ []) :
    joinSegsCh (s :: t) = s.data ++ '/' :: joinSegsCh t := by
  cases t with
  | nil => exact absurd rfl h
  | cons a u => rfl

/-- The `/`-join is injective on non-empty lists of slash-free segments. -/
theorem joinSegsCh_inj : ∀ {l1 l2 : List String}, l1 ≠ [] → l2 ≠ [] →
    (∀ s ∈ l1, '/' ∉ s.data) → (∀ s ∈ l2, '/' ∉ s.data) →
    joinSegsCh l1 = joinSegsCh l2 → l1 = l2 := by
  intro l1
  induction l1 with
  | nil => intro l2 h1 _ _ _ _; exact absurd rfl h1
  | cons s1 t1 ih =>
    intro l2 _ h2 hs1 hs2 he
    cases l2 with
    | nil => exact absurd rfl h2
    | cons s2 t2 =>
      by_cases ht1 : t1 = []
      · subst ht1
        cases t2 with
        | nil =>
          simp only [joinSegsCh] at he
          rw [String.ext he]
        | cons a u =>
          rw [joinSegsCh_cons s2 (a :: u) (by simp)] at he
          simp only [joinSegsCh] at he
          exfalso
          apply hs1 s1 (List.mem_cons_self _ _)
          rw [he]
          exact List.mem_append_right _ (List.mem_cons_self _ _)
      · cases t2 with
        | nil =>
          rw [joinSegsCh_cons s1 t1 ht1] at he
          simp only [joinSegsCh] at he
          exfalso
          apply hs2 s2 (List.mem_cons_self _ _)
          rw [← he]
          exact List.mem_append_right _ (List.mem_cons_self _ _)
        | cons a u =>
          rw [joinSegsCh_cons s1 t1 ht1, joinSegsCh_cons s2 (a :: u) (by simp)] at he
          obtain ⟨hd, htl⟩ := split_first_marker
            (hs1 s1 (List.mem_cons_self _ _)) (hs2 s2 (List.mem_cons_self _ _)) he
          have hseq : s1 = s2 := String.ext hd
          have hteq : t1 = a :: u := ih ht1 (by simp)
            (fun s hs => hs1 s (List.mem_cons_of_mem _ hs))
            (fun s hs => hs2 s (List.mem_cons_of_mem _ hs)) htl
          rw [hseq, hteq]

/-- C3 counterexample: the transform is not injective on distinct class
file paths of one package — the same relative path under two different
smali roots (as a multi-dex package produces) yields the same dalvik type
name. -/
theorem dalvik_type_not_injective :
    (["h", "smali", "com", "a.smali"] : Path) ≠ ["h", "smali_classes2", "com", "a.smali"] ∧
    Context.dalvik_type_of_disassembled_class ["h"] ["h", "smali", "com", "a.smali"] =
      Context.dalvik_type_of_disassembled_class ["h"] ["h", "smali_classes2", "com", "a.smali"] :=
  ⟨by decide, rfl⟩

theorem source_name_drop (wd : Path) (root : String) (segs : List String) :
    Context.source_name_of_disassembled_class wd (wd ++ root :: segs) =
      ⟨joinSegsCh segs⟩ := by
  unfold Context.source_name_of_disassembled_class
  congr 1
  have hsplit : wd ++ root :: segs = (wd ++ [root]) ++ segs := by simp
  have hl : (wd ++ [root]).length = wd.length + 1 := by simp
  rw [hsplit, ← hl, List.drop_left]

/-- C3 amended: the transform removes every occurrence of the substring
`.smali` from the root-stripped `/`-joined path — which coincides with
dropping the extension when `.smali` occurs only terminally — and under
that restriction it is injective for files below one and the same
disassembly root; across distinct roots (or for names with further
`.smali` occurrences) distinct files can collide, as the counterexample
shows. -/
theorem dalvik_type_transform_amended (wd : Path) (root : String)
    (segs1 segs2 : List String) (stem1 stem2 : List Char)
    (hn1 : segs1 ≠ []) (hn2 : segs2 ≠ [])
    (hs1 : ∀ s ∈ segs1, '/' ∉ s.data) (hs2 : ∀ s ∈ segs2, '/' ∉ s.data)
    (hj1 : joinSegsCh segs1 = stem1 ++ ".smali".data)
    (hj2 : joinSegsCh segs2 = stem2 ++ ".smali".data)
    (ho1 : ∀ i < stem1.length, isAnc ".smali".data ((stem1 ++ ".smali".data).drop i) = false)
    (ho2 : ∀ i < stem2.length, isAnc ".smali".data ((stem2 ++ ".smali".data).drop i) = false) :
    Context.dalvik_type_of_disassembled_class wd (wd ++ root :: segs1) =
      ⟨'L' :: (stem1 ++ [';'])⟩ ∧
    (Context.dalvik_type_of_disassembled_class wd (wd ++ root :: segs1) =
        Context.dalvik_type_of_disassembled_class wd (wd ++ root :: segs2) →
      wd ++ root :: segs1 = wd ++ root :: segs2) := by
  have hpat : (".smali".data : List Char) ≠ [] := by decide
  have hform : ∀ (segs : List String) (stem : List Char),
      joinSegsCh segs = stem ++ ".smali".data →
      (∀ i < stem.length, isAnc ".smali".data ((stem ++ ".smali".data).drop i) = false) →
      Context.dalvik_type_of_disassembled_class wd (wd ++ root :: segs) =
        ⟨'L' :: (stem ++ [';'])⟩ := by
    intro segs stem hj ho
    unfold Context.dalvik_type_of_disassembled_class
    rw [source_name_drop]
    apply String.ext
    simp only [String.data_append]
    show ('L' :: []) ++ replaceAllCh ".smali".data [] (joinSegsCh segs) ++ [';'] =
      'L' :: (stem ++ [';'])
    rw [hj, replaceAllCh_terminal _ _ _ hpat ho]
    simp
  have hd1 := hform segs1 stem1 hj1 ho1
  have hd2 := hform segs2 stem2 hj2 ho2
  refine ⟨hd1, fun heq => ?_⟩
  rw [hd1, hd2] at heq
  have hdata : 'L' :: (stem1 ++ [';']) = 'L' :: (stem2 ++ [';']) :=
    congrArg String.data heq
  injection hdata with _ hdata'
  have hstem : stem1 = stem2 := List.append_cancel_right hdata'
  have hjoin : joinSegsCh segs1 = joinSegsCh segs2 := by
    rw [hj1, hj2, hstem]
  rw [joinSegsCh_inj hn1 hn2 hs1 hs2 hjoin]

theorem dalvik_type_transform_amended_witness :
    ((["com", "a.smali"] : List String) ≠ [] ∧
      (∀ s ∈ (["com", "a.smali"] : List String), '/' ∉ s.data) ∧
      joinSegsCh ["com", "a.smali"] = "com/a".data ++ ".smali".data ∧
      (∀ i < ("com/a".data).length,
        isAnc ".smali".data (("com/a".data ++ ".smali".data).drop i) = false)) ∧
    Context.dalvik_type_of_disassembled_class ["h"] (["h"] ++ "smali" :: ["com", "a.smali"]) =
      ⟨'L' :: ("com/a".data ++ [';'])⟩ :=
  ⟨⟨by decide, by decide, by decide, by decide⟩,
   (dalvik_type_transform_amended ["h"] "smali" ["com", "a.smali"] ["com", "a.smali"]
      "com/a".data "com/a".data (by decide) (by decide) (by decide) (by decide)
      (by decide) (by decide) (by decide) (by decide)).1⟩

/-! ## C9: the config modifier's begin/end protocol -/

theorem lookupKV_setKV_self (m : List (String × String)) (k v : String)
    (h : (lookupKV m k).isSome = true) :
    lookupKV (setKV m k v) k = some v := by
  induction m with
  | nil => simp [lookupKV] at h
  | cons p t ih =>
    by_cases hpk : p.1 = k
    · simp [lookupKV, setKV, List.find?_cons, hpk]
    · have hd : (decide (p.1 = k)) = false := by simpa using hpk
      have h' : (lookupKV t k).isSome = true := by
        simpa [lookupKV, List.find?_cons, hd] using h
      have hrec := ih h'
      simp only [lookupKV, setKV, List.map_cons, if_neg hpk, List.find?_cons, hd] at hrec ⊢
      exact hrec

theorem lookupKV_delKV_self (m : List (String × String)) (k : String) :
    lookupKV (delKV m k) k = none := by
  have hnone : List.find? (fun p => p.1 = k) (delKV m k) = none := by
    apply List.find?_eq_none.mpr
    intro x hx
    have hxk := (List.mem_filter.mp hx).2
    simpa using hxk
  simp [lookupKV, hnone]

/-- What a `begin` event does when `k` is unstashed and known: stash the
old value, set the new one. -/
theorem mod_begin_binds (val k v ov : String) (st : ConfState)
    (hval : val.data.contains '=' = true) (hsplit : pySplitEq val = [k, v])
    (hstash : lookupKV st.stash k = none)
    (hget : lookupKV st.config k = some ov) :
    ConfigCommand.mod .evBegin val st =
      (⟨setKV st.config k v, (k, ov) :: st.stash⟩, none) := by
  unfold ConfigCommand.mod
  rw [hval, hsplit]
  simp only [not_true, reduceIte]
  rw [hstash]
  simp only [Option.isSome_none, Bool.false_eq_true, reduceIte]
  rw [show get_config st k = some ov from hget]
  unfold set_config
  rw [hget]
  rfl

/-- What an `end` event does when `k` is stashed and known: write the
stashed value back and drop the stash binding. -/
theorem mod_end_restores (val k v ov : String) (st2 : ConfState)
    (hval : val.data.contains '=' = true) (hsplit : pySplitEq val = [k, v])
    (hstash2 : lookupKV st2.stash k = some ov)
    (hcfg2 : (lookupKV st2.config k).isSome = true) :
    ConfigCommand.mod .evEnd val st2 =
      (⟨setKV st2.config k ov, delKV st2.stash k⟩, none) := by
  unfold ConfigCommand.mod
  rw [hval, hsplit]
  simp only [not_true, reduceIte]
  rw [hstash2]
  unfold set_config
  rw [show (lookupKV st2.config k).isSome = true from hcfg2]
  rfl

/-- An `end` event never leaves `k` in the stash, whatever branch it
takes — the assertion branch starts from an unstashed `k`, and both the
success and the exception branch of the restoring set go through the
`finally:` removal. -/
theorem mod_end_unstashes (val k v : String) (st' : ConfState)
    (hval : val.data.contains '=' = true) (hsplit : pySplitEq val = [k, v]) :
    lookupKV ((ConfigCommand.mod .evEnd val st').1).stash k = none := by
  unfold ConfigCommand.mod
  rw [hval, hsplit]
  simp only [not_true, reduceIte]
  cases hl : lookupKV st'.stash k with
  | none => simpa using hl
  | some ov' =>
    cases hsc : set_config st' k ov' with
    | none => simp [hsc, lookupKV_delKV_self]
    | some st1 => simp [hsc, lookupKV_delKV_self]

/-- C9: with `k` not yet stashed, a `begin` event with `k=v` stashes the
current config value of `k` and rebinds `k` to `v`; the matching `end`
event writes the stashed value back — the config value of `k` is exactly
what it was before `begin` — and drops `k` from the stash; and an `end`
event leaves `k` unstashed on every exit path, also when the restoring
set raises. -/
theorem config_mod_begin_end (st : ConfState) (val k v ov : String)
    (hval : val.data.contains '=' = true)
    (hsplit : pySplitEq val = [k, v])
    (hstash : lookupKV st.stash k = none)
    (hget : get_config st k = some ov) :
    (ConfigCommand.mod .evBegin val st).2 = none ∧
    get_config (ConfigCommand.mod .evBegin val st).1 k = some v ∧
    lookupKV (ConfigCommand.mod .evBegin val st).1.stash k = some ov ∧
    (ConfigCommand.mod .evEnd val (ConfigCommand.mod .evBegin val st).1).2 = none ∧
    get_config (ConfigCommand.mod .evEnd val (ConfigCommand.mod .evBegin val st).1).1 k =
      some ov ∧
    lookupKV
      (ConfigCommand.mod .evEnd val (ConfigCommand.mod .evBegin val st).1).1.stash k =
      none ∧
    ∀ st' : ConfState,
      lookupKV ((ConfigCommand.mod .evEnd val st').1).stash k = none := by
  have hcfg : lookupKV st.config k = some ov := hget
  have hcfgS : (lookupKV st.config k).isSome = true := by rw [hcfg]; rfl
  have hbegin := mod_begin_binds val k v ov st hval hsplit hstash hcfg
  have hb1 : (ConfigCommand.mod .evBegin val st).1 =
      (⟨setKV st.config k v, (k, ov) :: st.stash⟩ : ConfState) := by rw [hbegin]
  have hsetS : (lookupKV (setKV st.config k v) k).isSome = true := by
    rw [lookupKV_setKV_self st.config k v hcfgS]; rfl
  have hstash2 : lookupKV ((k, ov) :: st.stash) k = some ov := by
    simp [lookupKV, List.find?_cons]
  have hend := mod_end_restores val k v ov
    (⟨setKV st.config k v, (k, ov) :: st.stash⟩ : ConfState) hval hsplit hstash2 hsetS
  have he1 : (ConfigCommand.mod .evEnd val
      (⟨setKV st.config k v, (k, ov) :: st.stash⟩ : ConfState)).1 =
      (⟨setKV (setKV st.config k v) k ov,
        delKV ((k, ov) :: st.stash) k⟩ : ConfState) := by rw [hend]
  refine ⟨by rw [hbegin], ?_, ?_, ?_, ?_, ?_,
          fun st' => mod_end_unstashes val k v st' hval hsplit⟩
  · rw [hb1]
    exact lookupKV_setKV_self st.config k v hcfgS
  · rw [hb1]
    exact hstash2
  · rw [hb1, hend]
  · rw [hb1, he1]
    exact lookupKV_setKV_self _ k ov hsetS
  · rw [hb1, he1]
    exact lookupKV_delKV_self _ k

/-- Concrete state for the C9 witness. -/
def confStWitness : ConfState := ⟨[("key", "old")], []⟩

theorem config_mod_begin_end_witness :
    (("key=new" : String).data.contains '=' = true ∧
      pySplitEq "key=new" = ["key", "new"] ∧
      lookupKV confStWitness.stash "key" = none ∧
      get_config confStWitness "key" = some "old") ∧
    get_config
      (ConfigCommand.mod .evEnd "key=new"
        (ConfigCommand.mod .evBegin "key=new" confStWitness).1).1 "key" = some "old" :=
  ⟨⟨rfl, rfl, rfl, rfl⟩,
   (config_mod_begin_end confStWitness "key=new" "key" "new" "old"
      rfl rfl rfl rfl).2.2.2.2.1⟩

end Trueseeing
